import Mathlib

/-!
Shallow embedding of the content-monitoring engine of AIFeedTrackerOne
(src/services/xhs/monitor.py and src/services/xhs/client.py).

Python dict fields that may be absent are modelled with sentinel defaults
matching Python truthiness: a missing or empty string is `""`, a missing or
zero timestamp is `0`, a missing or empty dict is `Option.none`.
-/

namespace AIFeedTracker

/-! ## JsonState (monitor.py, class JsonState) -/

/-- The capacity step of `JsonState.mark_seen`: `seen[-200:]` when the list
holds more than 200 ids. -/
def markSeenCap (s : List String) : List String :=
  if 200 < s.length then s.drop (s.length - 200) else s

/-- `JsonState.mark_seen`: append `noteId` to the per-creator `seen` list if not
already present, then cap the list to the last 200 insertions. -/
def markSeen (seen : List String) (noteId : String) : List String :=
  markSeenCap (if noteId ∈ seen then seen else seen ++ [noteId])

/-- `JsonState.has_seen`: membership test against the `seen` list. -/
def hasSeen (seen : List String) (noteId : String) : Bool :=
  seen.contains noteId

/-- The per-creator `daily_seen` dict, as an insertion-ordered association list
from day key to the list of note ids recorded for that day. -/
abbrev DailyMap := List (String × List String)

/-- Day keys of a `daily_seen` map, in insertion order (Python dict order). -/
def dayKeys (daily : DailyMap) : List String :=
  daily.map (fun p => p.1)

/-- `JsonState.get_daily_seen`: value of `day_key`, or `[]` when absent. -/
def dsGet (daily : DailyMap) (k : String) : List String :=
  match daily.find? (fun p => p.1 == k) with
  | some p => p.2
  | none => []

/-- Python dict assignment `daily[day_key] = note_ids`: replace in place when
the key exists (keeping its position), else append the new key at the end. -/
def dsSet (daily : DailyMap) (k : String) (v : List String) : DailyMap :=
  match daily with
  | [] => [(k, v)]
  | (k', v') :: rest => if k' = k then (k, v) :: rest else (k', v') :: dsSet rest k v

/-- Lexicographic code-point comparison of character lists, modelling
Python's string ordering used by `sorted(daily.keys())`. -/
def charListLe : List Char → List Char → Bool
  | [], _ => true
  | _ :: _, [] => false
  | a :: as, b :: bs =>
      if a.val.toNat < b.val.toNat then true
      else if b.val.toNat < a.val.toNat then false
      else charListLe as bs

/-- Python's `<=` on strings (lexicographic by code point). -/
def keyLe (a b : String) : Bool :=
  charListLe a.toList b.toList

/-- `keyLe` as a relation, for sorting. -/
def keyLeR (a b : String) : Prop :=
  keyLe a b = true

instance : DecidableRel keyLeR :=
  fun a b => instDecidableEqBool (keyLe a b) true

/-- The day keys `sorted(daily.keys())[:-7]` evicted by `set_daily_seen` when
the map holds more than 7 keys: all but the 7 largest keys. -/
def evictKeys (d : DailyMap) : List String :=
  (List.insertionSort keyLeR (dayKeys d)).take
    ((List.insertionSort keyLeR (dayKeys d)).length - 7)

/-- `JsonState.set_daily_seen`: wholesale replacement of the day's id list,
followed by eviction of the oldest day keys (in sorted key order) when the map
holds more than 7 keys. -/
def setDailySeen (daily : DailyMap) (k : String) (v : List String) : DailyMap :=
  if 7 < (dsSet daily k v).length then
    (dsSet daily k v).filter (fun p => !((evictKeys (dsSet daily k v)).contains p.1))
  else dsSet daily k v

/-- `JsonState.add_daily_seen`: incremental add of one id to the day's list
(creating the day at the end of the map if absent), deduplicated; no eviction. -/
def addDailySeen (daily : DailyMap) (k : String) (noteId : String) : DailyMap :=
  match daily with
  | [] => [(k, [noteId])]
  | (k', v) :: rest =>
      if k' = k then (k', if noteId ∈ v then v else v ++ [noteId]) :: rest
      else (k', v) :: addDailySeen rest k noteId

/-! ## Identity resolution (monitor.py, `XHSMonitorService._resolve_user`) -/

/-- A monitored creator (monitor.py, dataclass `XHSCreator`). -/
structure XHSCreator where
  redId : String
  name : String
  checkInterval : Nat := 600
deriving DecidableEq, Repr

/-- One entry of a user-search result payload; `""` encodes a missing field. -/
structure UserD where
  id : String := ""
  userId : String := ""
  redId : String := ""
  xsecToken : String := ""
  xsecSource : String := ""
  name : String := ""
deriving DecidableEq, Repr

/-- The dict returned by `_resolve_user` on success. -/
structure ResolvedUser where
  userId : String
  xsecToken : String
  xsecSource : String
  name : String
deriving DecidableEq, Repr

/-- Prefix test on character lists. -/
def strStartsWith : List Char → List Char → Bool
  | _, [] => true
  | [], _ :: _ => false
  | c :: cs, d :: ds => c == d && strStartsWith cs ds

/-- The suffix after the last occurrence of `sep` (`none` when `sep` does not
occur); models Python's `raw.split(sep)[-1]` together with the `sep in raw`
containment test, for a separator without self-overlap. -/
def afterLastSep (sep : List Char) : List Char → Option (List Char)
  | [] => none
  | c :: cs =>
      match afterLastSep sep cs with
      | some r => some r
      | none =>
          if strStartsWith (c :: cs) sep then some ((c :: cs).drop sep.length)
          else none

/-- `_extract_profile_id`: when the reference contains the profile-URL marker,
keep what follows its last occurrence and drop any `?query` suffix
(`raw.split(sep)[-1].split("?")[0]`); other inputs pass through unchanged. -/
def extractProfileId (raw : String) : String :=
  if raw = "" then ""
  else
    match afterLastSep ("xiaohongshu.com/user/profile/".toList) raw.toList with
    | some rest => String.mk (rest.takeWhile (fun c => c != '?'))
    | none => raw

/-- `_is_profile_id`: full match of `[0-9a-f]{24}`. -/
def isProfileId (raw : String) : Bool :=
  raw.length = 24 && raw.toList.all (fun c => c.isDigit || ('a' ≤ c && c ≤ 'f'))

/-- `XHSMonitorService._resolve_user`, with the two network collaborators made
explicit: `profileTok` is the `(ok, token, source)` triple produced by
`client.get_profile_xsec_token` for the extracted profile id, and
`searchRaw` / `searchName` are the user lists produced by `client.search_user`
for the raw reference and for the display name (`none` models a failed call,
which `_search` turns into no users). -/
def resolveUser (profileTok : Bool × String × String)
    (searchRaw searchName : Option (List UserD)) (creator : XHSCreator) :
    Option ResolvedUser :=
  let rawId := extractProfileId creator.redId
  if isProfileId rawId then
    let token := profileTok.2.1
    let source := profileTok.2.2
    some { userId := rawId, xsecToken := token,
           xsecSource := if source = "" then "pc_user" else source,
           name := creator.name }
  else
    let users1 := searchRaw.getD []
    let users := if users1.isEmpty && creator.name ≠ "" && creator.name ≠ rawId
                 then searchName.getD [] else users1
    match users with
    | [] => none
    | u0 :: _ =>
      let target := (users.find? (fun u => u.redId == rawId)).getD u0
      some { userId := if target.id ≠ "" then target.id else target.userId,
             xsecToken := target.xsecToken,
             xsecSource := if target.xsecSource = "" then "pc_search" else target.xsecSource,
             name := if target.name = "" then creator.name else target.name }

/-! ## Note payload model (client.py extraction helpers) -/

/-- One entry of an `image_list`; `infoList` holds the `url` fields of the
`info_list` entries (`""` for a missing url), `url` is the top-level `url`. -/
structure ImageItem where
  infoList : List String := []
  url : String := ""
deriving DecidableEq, Repr

/-- The `cover` field of a note card: absent, a bare string, or a dict with
`url` / `url_default` / `url_pre` keys and an `info_list` (modelled by the
`url` fields of its entries). -/
inductive CoverVal where
  | noCover : CoverVal
  | covStr : String → CoverVal
  | covDict : String → String → String → List String → CoverVal
deriving DecidableEq, Repr

/-- A `note_card` dict; `0` encodes a missing `time`, `""` a missing `type`. -/
structure NoteCardD where
  time : Nat := 0
  type : String := ""
  imageList : List ImageItem := []
  cover : CoverVal := .noCover
  title : String := ""
  desc : String := ""
deriving DecidableEq, Repr

/-- One entry of the `user_posted` feed; `noteCard = none` models a missing or
empty `note_card` dict (both are falsy in Python). -/
structure NoteD where
  noteId : String := ""
  time : Nat := 0
  type : String := ""
  noteCard : Option NoteCardD := none
  imageList : List ImageItem := []
  cover : CoverVal := .noCover
deriving DecidableEq, Repr

/-- Resolution of one `image_list` entry to a url: last `info_list` url, else
first `info_list` url, else the top-level `url`; `""` when all are missing. -/
def imageItemUrl (img : ImageItem) : String :=
  let u :=
    if img.infoList ≠ [] then
      if img.infoList.getLastD "" ≠ "" then img.infoList.getLastD ""
      else img.infoList.headD ""
    else ""
  if u ≠ "" then u else img.url

/-- `XHSClient.extract_image_urls`: urls of a card's `image_list`, skipping
entries that resolve to no url. -/
def extractImageUrls (card : NoteCardD) : List String :=
  (card.imageList.map imageItemUrl).filter (fun u => u ≠ "")

/-- Append a url unless it is empty or already collected (the `seen`-set
deduplication of `extract_image_urls_from_note`). -/
def addUnique (acc : List String) (u : String) : List String :=
  if u = "" || u ∈ acc then acc else acc ++ [u]

/-- `XHSClient.extract_image_urls_from_note`: with a truthy `note_card`,
delegate to `extract_image_urls`; otherwise collect deduplicated urls from the
note-level `image_list`, then from the cover's `info_list`, then from the
cover's `url` / `url_default` / `url_pre` keys (or a bare string cover). -/
def extractImageUrlsFromNote (note : NoteD) : List String :=
  match note.noteCard with
  | some card => extractImageUrls card
  | none =>
    let l1 := (note.imageList.map imageItemUrl).foldl addUnique []
    match note.cover with
    | .covDict url urlDefault urlPre infoList =>
        [url, urlDefault, urlPre].foldl addUnique (infoList.foldl addUnique l1)
    | .covStr s => addUnique l1 s
    | .noCover => l1

/-- `XHSMonitorService._has_full_image_list`: the card's `image_list` is
non-empty, or the note-level `image_list` is non-empty. -/
def hasFullImageList (note : NoteD) : Bool :=
  (match note.noteCard with
   | some c => !c.imageList.isEmpty
   | none => false)
  || !note.imageList.isEmpty

/-- Cover-url resolution inside `_drop_cover_image`: first truthy of the
dict keys `url`, `url_default`, `url_pre`; else the last (falling back to the
first) `info_list` url; a bare string cover is used as is; `""` means none. -/
def resolveCoverUrl : CoverVal → String
  | .noCover => ""
  | .covStr s => s
  | .covDict url urlDefault urlPre infoList =>
      if url ≠ "" then url
      else if urlDefault ≠ "" then urlDefault
      else if urlPre ≠ "" then urlPre
      else
        match infoList with
        | [] => ""
        | l => if l.getLastD "" ≠ "" then l.getLastD "" else l.headD ""

/-- `XHSMonitorService._drop_cover_image`: remove every occurrence of the
resolved cover url from the image url list; no-op when the list is empty or no
cover url resolves. -/
def dropCoverImage (card : NoteCardD) (imageUrls : List String) : List String :=
  if imageUrls = [] then imageUrls
  else if resolveCoverUrl card.cover ≠ "" then
    imageUrls.filter (fun u => u ≠ resolveCoverUrl card.cover)
  else imageUrls

/-- Effective publish time of a feed entry:
`note_card.get("time") or note.get("time") or 0`. -/
def effNoteTime (note : NoteD) : Nat :=
  let ct := (note.noteCard.getD {}).time
  if ct ≠ 0 then ct else note.time

/-- Effective type of a feed entry:
`note_card.get("type") or note.get("type")` (`""` = missing). -/
def effNoteType (note : NoteD) : String :=
  let ct := (note.noteCard.getD {}).type
  if ct ≠ "" then ct else note.type

/-! ## Detail-fetch fallback chain (monitor.py `_fetch_note_detail_card`) -/

/-- A `get_note_info` response: its `success` flag and its `data.items` list,
each item carrying an optional `note_card`. -/
structure DetailResp where
  ok : Bool := false
  items : List (Option NoteCardD) := []
deriving DecidableEq, Repr

/-- Extraction of `items[0].get("note_card") or {}` from a response; `none`
when `items` is empty. -/
def respCard (r : DetailResp) : Option NoteCardD :=
  match r.items with
  | [] => none
  | c :: _ => some (c.getD {})

/-- `XHSMonitorService._fetch_note_detail_card`, with the network collaborators
explicit: `resp1` is the first `get_note_info` response, `tokenRefresh` the
result of `get_note_xsec_token` on the note's own page (`none` = failed), and
`resp2` the retried `get_note_info` response. Returns the resolved card (if
any) together with the number of detail-fetch attempts made. -/
def fetchNoteDetailCard (resp1 : DetailResp) (tokenRefresh : Option (String × String))
    (resp2 : DetailResp) : Option NoteCardD × Nat :=
  if resp1.ok then (respCard resp1, 1)
  else
    match tokenRefresh with
    | some _ => if resp2.ok then (respCard resp2, 2) else (none, 2)
    | none => (none, 1)

/-! ## Chunked summarization (monitor.py `_summarize_images_in_batches`) -/

/-- An image payload handed to the AI collaborator (opaque to the chunking). -/
abbrev Img := String

/-- One AI call: the image chunk and the text hint passed to
`_summarize_images` (which prefixes the configured prompt). -/
structure AICall where
  imgs : List Img
  hint : String
deriving DecidableEq, Repr

/-- Chunking worker, recursing on a fuel bounding the number of chunks (the
image count suffices since every chunk is non-empty). -/
def chunkImagesAux (size : Nat) : Nat → List Img → List (List Img)
  | 0, _ => []
  | _ + 1, [] => []
  | fuel + 1, c :: cs => (c :: cs).take size :: chunkImagesAux size fuel ((c :: cs).drop size)

/-- `XHSMonitorService._chunk_images`: contiguous chunks of at most `size`
images, preserving order (`size = 0` models Python's `size <= 0` guard, which
returns the whole list as one chunk). -/
def chunkImages (images : List Img) (size : Nat) : List (List Img) :=
  if size = 0 then [images]
  else chunkImagesAux size images.length images

/-- The merge prompt built for a chunk when a previous summary exists. -/
def mergedHint (textHint prev : String) : String :=
  textHint ++ "\n\n历史摘要：\n" ++ prev ++ "\n\n" ++
    "请融合历史摘要与当前图片内容，输出一份完整的最终总结。" ++
    "不要写“历史/摘要/本次/当前/补充/以下是/收到”等字样。"

/-- The hint a chunk receives, given the running previous summary (`""` when
no chunk has succeeded yet). -/
def hintSpec (textHint prev : String) : String :=
  if prev ≠ "" then mergedHint textHint prev else textHint

/-- The running "last known good" summary after a sequence of AI calls:
the output of the most recent call returning a truthy (non-`none`, non-empty)
string, `""` when none did. -/
def lastGoodOut (oracle : List Img → String → Option String) (calls : List AICall) : String :=
  calls.foldl
    (fun acc c =>
      match oracle c.imgs c.hint with
      | some t => if t ≠ "" then t else acc
      | none => acc)
    ""

/-- The multi-chunk loop of `_summarize_images_in_batches`: fold over the
chunks carrying `prev_summary` and `last_summary`, recording every AI call
made. `oracle` models `_summarize_images` (`none` = a failed call). -/
def summarizeBatchesLoop (oracle : List Img → String → Option String) (textHint : String) :
    List (List Img) → String → String → List AICall → String × List AICall
  | [], _, last, calls => (last, calls)
  | batch :: rest, prev, last, calls =>
      let hint := if prev ≠ "" then mergedHint textHint prev else textHint
      match oracle batch hint with
      | some t =>
          if t ≠ "" then
            summarizeBatchesLoop oracle textHint rest t t (calls ++ [⟨batch, hint⟩])
          else
            summarizeBatchesLoop oracle textHint rest prev last (calls ++ [⟨batch, hint⟩])
      | none => summarizeBatchesLoop oracle textHint rest prev last (calls ++ [⟨batch, hint⟩])

/-- `XHSMonitorService._summarize_images_in_batches`: returns the summary
(`none` for no images or zero successful chunks) together with the list of AI
calls made, in order. -/
def summarizeImagesInBatches (oracle : List Img → String → Option String)
    (images : List Img) (textHint : String) (imageBatchSize : Nat) :
    Option String × List AICall :=
  if images = [] then (none, [])
  else if (chunkImages images (max 1 imageBatchSize)).length = 1 then
    (oracle ((chunkImages images (max 1 imageBatchSize)).headD []) textHint,
     [⟨(chunkImages images (max 1 imageBatchSize)).headD [], textHint⟩])
  else
    (if (summarizeBatchesLoop oracle textHint
          (chunkImages images (max 1 imageBatchSize)) "" "" []).1 ≠ "" then
       some (summarizeBatchesLoop oracle textHint
          (chunkImages images (max 1 imageBatchSize)) "" "" []).1
     else none,
     (summarizeBatchesLoop oracle textHint
        (chunkImages images (max 1 imageBatchSize)) "" "" []).2)

/-! ## Per-note processing (monitor.py `_process_today_note`) -/

/-- Observable outcome of `_process_today_note`: which ledgers were written,
whether a notification was dispatched, and which image urls reached the
summarizer and the notification body. -/
structure ProcessOutcome where
  handled : Bool := false
  markedSeen : Bool := false
  addedDaily : Bool := false
  notified : Bool := false
  summarizerUrls : List String := []
  notifImageUrls : List String := []
deriving DecidableEq, Repr

/-- The note card in effect after the optional detail fetch (the detail card
replaces the stub card when the stub lacks a full image list and the fetch
yields a truthy card). -/
def noteResolvedCard (note : NoteD) (detail : Option NoteCardD) : NoteCardD :=
  if hasFullImageList note then note.noteCard.getD {}
  else
    match detail with
    | some d => d
    | none => note.noteCard.getD {}

/-- The type in effect after the optional detail fetch. -/
def noteResolvedType (note : NoteD) (detail : Option NoteCardD) : String :=
  if hasFullImageList note then effNoteType note
  else
    match detail with
    | some d => if d.type ≠ "" then d.type else effNoteType note
    | none => effNoteType note

/-- The image url list before cover exclusion: extracted from the note when it
carries a full image list, from the detail card when one was fetched, and
empty when the detail fetch failed. -/
def notePreImageUrls (note : NoteD) (detail : Option NoteCardD) : List String :=
  if hasFullImageList note then extractImageUrlsFromNote note
  else
    match detail with
    | some d => extractImageUrls d
    | none => []

/-- The image payloads downloaded for a note: those of the kept (post
cover-exclusion) urls whose download succeeds, in order. -/
def noteDownloadedUrls (note : NoteD) (detail : Option NoteCardD)
    (dlOk : String → Bool) : List String :=
  (dropCoverImage (noteResolvedCard note detail) (notePreImageUrls note detail)).filter dlOk

/-- `XHSMonitorService._process_today_note`, with the collaborators explicit:
`detail` is the `_fetch_note_detail_card` result (`none` = failed or empty),
`dlOk` tells which image downloads succeed, `hasBot` whether a notification
sink is configured, and `batchSize` is `self.image_batch_size`; branches on
the entry id, the resolved type, and the resolved image url list, mirroring
the source's early returns. -/
def processTodayNote (note : NoteD) (detail : Option NoteCardD)
    (dlOk : String → Bool) (hasBot : Bool) (batchSize : Nat) : ProcessOutcome :=
  if note.noteId = "" then {}
  else if noteResolvedType note detail ≠ "" && noteResolvedType note detail ≠ "normal" then
    { handled := true, markedSeen := true, addedDaily := true }
  else if notePreImageUrls note detail = [] then
    { handled := true, markedSeen := true, addedDaily := true }
  else
    { handled := true, markedSeen := true, addedDaily := true,
      notified := hasBot,
      summarizerUrls := noteDownloadedUrls note detail dlOk,
      notifImageUrls := (noteDownloadedUrls note detail dlOk).take batchSize }

/-! ## Per-creator tick (monitor.py `process_creator`) -/

/-- Python dict assignment for `note_time_map`: overwrite in place when the
key exists, else append. -/
def mapInsert (m : List (String × Nat)) (k : String) (v : Nat) : List (String × Nat) :=
  if m.any (fun p => p.1 == k) then m.map (fun p => if p.1 == k then (k, v) else p)
  else m ++ [(k, v)]

/-- `note_time_map.get(key, 0)`. -/
def mapLookup (m : List (String × Nat)) (k : String) : Nat :=
  match m.find? (fun p => p.1 == k) with
  | some p => p.2
  | none => 0

/-- The `note_time_map` built while filtering today's notes: each today-note's
id mapped to its (integer) effective time, later duplicates overwriting. -/
def noteTimeMap (todayNotes : List NoteD) : List (String × Nat) :=
  todayNotes.foldl (fun m n => mapInsert m n.noteId (effNoteTime n)) []

/-- Sort key comparison for the descending (most-recent-first) sort
`today_notes.sort(key=..., reverse=True)`. -/
def timeKeyDesc (m : List (String × Nat)) (a b : NoteD) : Prop :=
  mapLookup m b.noteId ≤ mapLookup m a.noteId

/-- Sort key comparison for the ascending (oldest-first) sorts. -/
def timeKeyAsc (m : List (String × Nat)) (a b : NoteD) : Prop :=
  mapLookup m a.noteId ≤ mapLookup m b.noteId

instance (m : List (String × Nat)) : DecidableRel (timeKeyDesc m) :=
  fun a b => Nat.decLe (mapLookup m b.noteId) (mapLookup m a.noteId)

instance (m : List (String × Nat)) : DecidableRel (timeKeyAsc m) :=
  fun a b => Nat.decLe (mapLookup m a.noteId) (mapLookup m b.noteId)

/-- The today-filter of `process_creator`: keep entries with a note id whose
effective publish time is truthy (non-zero) and falls on today
(`isToday` models `_is_today` against the wall clock). -/
def todayNotesOf (notes : List NoteD) (isToday : Nat → Bool) : List NoteD :=
  notes.filter (fun n => n.noteId != "" && effNoteTime n != 0 && isToday (effNoteTime n))

/-- Observable outcome of one `process_creator` tick: the notes handed to
`_process_today_note` in order, the argument of the `set_daily_seen` baseline
call (if made), and the ids that were only `add_daily_seen`-ed because they
were already in the all-time ledger. -/
structure TickResult where
  processed : List NoteD := []
  baselineSet : Option (List String) := none
  dailyAddOnly : List String := []
deriving DecidableEq, Repr

/-- `XHSMonitorService.process_creator` after a successful identity resolution
and feed listing: `notes` is `data.notes`, `seenToday` the stored
`get_daily_seen` result for today, `allSeen` the all-time `seen` list. -/
def processCreator (notes : List NoteD) (isToday : Nat → Bool)
    (seenToday allSeen : List String) : TickResult :=
  let todayNotes := todayNotesOf notes isToday
  let todayIds := todayNotes.map (fun n => n.noteId)
  if todayIds.isEmpty then {}
  else if seenToday.isEmpty then
    let m := noteTimeMap todayNotes
    let initial := (List.insertionSort (timeKeyDesc m) todayNotes).take 3
    { processed := List.insertionSort (timeKeyAsc m) initial,
      baselineSet := some todayIds }
  else
    let newNotes := todayNotes.filter (fun n => !(seenToday.contains n.noteId))
    if newNotes.isEmpty then {}
    else
      let m := noteTimeMap todayNotes
      let ordered := List.insertionSort (timeKeyAsc m) newNotes
      { processed := ordered.filter (fun n => !(allSeen.contains n.noteId)),
        dailyAddOnly := (ordered.filter (fun n => allSeen.contains n.noteId)).map
          (fun n => n.noteId) }

/-! ## Single-note test path (monitor.py `test_latest_note`) -/

/-- The candidate record carried by the `test_latest_note` selection loop. -/
structure TLCand where
  noteId : String
  card : NoteCardD
  imageUrls : List String
deriving DecidableEq, Repr

/-- The selection loop of `test_latest_note` over the first 10 feed entries:
skips entries without an id, resolves details for entries lacking a full image
list (`detailOf` models `_fetch_note_detail_card` per note id), skips
non-normal or imageless entries, keeps the entry with the greatest known
publish time — but an entry with unknown (zero) time is kept as first-seen
candidate when no candidate exists yet. -/
def testSelectGo (detailOf : String → Option NoteCardD) :
    List NoteD → Option TLCand → Nat → Option TLCand
  | [], cand, _ => cand
  | note :: rest, cand, candTime =>
      if note.noteId = "" then testSelectGo detailOf rest cand candTime
      else
        let step :=
          if hasFullImageList note then
            some (note.noteCard.getD {}, effNoteTime note, effNoteType note,
                  extractImageUrlsFromNote note)
          else
            match detailOf note.noteId with
            | some d =>
                some (d, (if d.time ≠ 0 then d.time else effNoteTime note),
                      (if d.type ≠ "" then d.type else effNoteType note),
                      extractImageUrls d)
            | none => none
        match step with
        | none => testSelectGo detailOf rest cand candTime
        | some (card, ntime, ntype, urls) =>
            if ntype ≠ "" && ntype ≠ "normal" then
              testSelectGo detailOf rest cand candTime
            else if urls = [] then
              testSelectGo detailOf rest cand candTime
            else if ntime ≠ 0 then
              if candTime < ntime then
                testSelectGo detailOf rest (some ⟨note.noteId, card, urls⟩) ntime
              else testSelectGo detailOf rest cand candTime
            else
              match cand with
              | none => testSelectGo detailOf rest (some ⟨note.noteId, card, urls⟩) candTime
              | some c => testSelectGo detailOf rest (some c) candTime

/-- `test_latest_note`'s candidate selection over `notes[:10]`. -/
def testLatestSelect (detailOf : String → Option NoteCardD) (notes : List NoteD) :
    Option TLCand :=
  testSelectGo detailOf (notes.take 10) none 0

/-- A concrete feed of ten today-notes with distinct ids and ascending
publish times, for exercising the first-run admission policy. -/
def tenTodayNotes : List NoteD :=
  [{ noteId := "n1", time := 100 }, { noteId := "n2", time := 200 },
   { noteId := "n3", time := 300 }, { noteId := "n4", time := 400 },
   { noteId := "n5", time := 500 }, { noteId := "n6", time := 600 },
   { noteId := "n7", time := 700 }, { noteId := "n8", time := 800 },
   { noteId := "n9", time := 900 }, { noteId := "n10", time := 1000 }]

/-! ## Theorems -/

theorem charListLe_total : ∀ as bs : List Char,
    charListLe as bs = true ∨ charListLe bs as = true := by
  intro as
  induction as with
  | nil => intro bs; left; rfl
  | cons a as ih =>
    intro bs
    cases bs with
    | nil => right; rfl
    | cons b bs =>
      by_cases h1 : a.val.toNat < b.val.toNat
      · left
        simp [charListLe, h1]
      · by_cases h2 : b.val.toNat < a.val.toNat
        · right
          simp [charListLe, h2]
        · rcases ih bs with h | h
          · left
            simp [charListLe, h1, h2, h]
          · right
            simp [charListLe, h1, h2, h]

theorem charListLe_trans : ∀ as bs cs : List Char,
    charListLe as bs = true → charListLe bs cs = true → charListLe as cs = true := by
  intro as
  induction as with
  | nil => intro bs cs _ _; rfl
  | cons a as ih =>
    intro bs cs h1 h2
    cases bs with
    | nil => simp [charListLe] at h1
    | cons b bs =>
      cases cs with
      | nil => simp [charListLe] at h2
      | cons c cs =>
        simp only [charListLe] at h1 h2 ⊢
        split_ifs at h1 h2 ⊢ with hab hba hbc hcb hac hca <;> try rfl
        all_goals try omega
        all_goals exact ih bs cs h1 h2

instance : IsTotal String keyLeR :=
  ⟨fun a b => charListLe_total a.toList b.toList⟩

instance : IsTrans String keyLeR :=
  ⟨fun a b c h1 h2 => charListLe_trans a.toList b.toList c.toList h1 h2⟩

instance (m : List (String × Nat)) : IsTotal NoteD (timeKeyDesc m) :=
  ⟨fun a b => Nat.le_total (mapLookup m b.noteId) (mapLookup m a.noteId)⟩

instance (m : List (String × Nat)) : IsTotal NoteD (timeKeyAsc m) :=
  ⟨fun a b => Nat.le_total (mapLookup m a.noteId) (mapLookup m b.noteId)⟩

instance (m : List (String × Nat)) : IsTrans NoteD (timeKeyDesc m) :=
  ⟨fun _ _ _ hab hbc => le_trans hbc hab⟩

instance (m : List (String × Nat)) : IsTrans NoteD (timeKeyAsc m) :=
  ⟨fun _ _ _ hab hbc => le_trans hab hbc⟩


/-- C5: allTimeSeen capacity invariant: any `markSeen` leaves at most 200 ids;
when an insertion overflows a full 200-id list the single oldest insertion is
evicted; ids are preserved by further `markSeen` calls while there is spare
capacity, and on an overflowing insertion every id except the evicted oldest
one survives. -/
theorem c5_allTimeSeen_capacity (s : List String) (noteId x y : String) :
    (markSeen s noteId).length ≤ 200 ∧
    (s.length = 200 → noteId ∉ s → markSeen s noteId = s.drop 1 ++ [noteId]) ∧
    (x ∈ s → s.length < 200 → x ∈ markSeen s y) ∧
    (s.length = 200 → y ∉ s → x ∈ s.drop 1 → x ∈ markSeen s y) := by
  have hcap : ∀ l : List String, (markSeenCap l).length ≤ 200 ∨ markSeenCap l = l := by
    intro l
    unfold markSeenCap
    split_ifs with h
    · left; simp; omega
    · right; rfl
  have hcaplen : ∀ l : List String, (markSeenCap l).length ≤ 200 ∨
      ((markSeenCap l).length = l.length ∧ ¬ 200 < l.length) := by
    intro l
    unfold markSeenCap
    split_ifs with h
    · left; simp; omega
    · right; exact ⟨rfl, h⟩
  refine ⟨?_, ?_, ?_, ?_⟩
  · unfold markSeen
    rcases hcaplen (if noteId ∈ s then s else s ++ [noteId]) with h | ⟨h1, h2⟩
    · exact h
    · rw [h1]
      omega
  · intro hlen hnotin
    unfold markSeen markSeenCap
    simp only [if_neg hnotin]
    rw [if_pos (by simp [hlen])]
    simp only [List.length_append, List.length_singleton, hlen]
    rw [List.drop_append_of_le_length (by omega)]
  · intro hx hlt
    unfold markSeen markSeenCap
    by_cases h1 : y ∈ s
    · simp only [if_pos h1]
      rw [if_neg (by omega)]
      exact hx
    · simp only [if_neg h1]
      rw [if_neg (by simp only [List.length_append, List.length_singleton]; omega)]
      exact List.mem_append_left _ hx
  · intro hlen hynot hx
    unfold markSeen markSeenCap
    simp only [if_neg hynot]
    rw [if_pos (by simp [hlen])]
    simp only [List.length_append, List.length_singleton, hlen]
    rw [List.drop_append_of_le_length (by omega)]
    exact List.mem_append_left _ hx

/-- C5 witness: instantiation on a concrete full 200-id list. -/
theorem c5_allTimeSeen_capacity_witness :
    (markSeen (List.replicate 200 "a") "z").length ≤ 200 ∧
    markSeen (List.replicate 200 "a") "z" =
      (List.replicate 200 "a").drop 1 ++ ["z"] := by
  have h := c5_allTimeSeen_capacity (List.replicate 200 "a") "z" "a" "z"
  refine ⟨h.1, h.2.1 (List.length_replicate 200 "a") ?_⟩
  simp only [List.mem_replicate]
  intro hc
  exact absurd hc.2 (by decide)

/-- C10: `mark_seen` is idempotent on an in-capacity list (an already present
id changes nothing, so its insertion position is not refreshed), `mark_seen`
preserves duplicate-freeness, and `add_daily_seen` of an id already recorded
for that day changes nothing. -/
theorem c10_markSeen_idempotent (s : List String) (noteId : String)
    (daily : DailyMap) (k : String) :
    (s.length ≤ 200 → noteId ∈ s → markSeen s noteId = s) ∧
    (s.Nodup → (markSeen s noteId).Nodup) ∧
    (noteId ∈ dsGet daily k → addDailySeen daily k noteId = daily) := by
  refine ⟨?_, ?_, ?_⟩
  · intro hlen hmem
    unfold markSeen markSeenCap
    simp only [if_pos hmem]
    rw [if_neg (by omega)]
  · intro hnd
    unfold markSeen markSeenCap
    have hnd2 : (if noteId ∈ s then s else s ++ [noteId]).Nodup := by
      split_ifs with h1
      · exact hnd
      · simp [List.nodup_append, hnd, h1]
    generalize (if noteId ∈ s then s else s ++ [noteId]) = l at hnd2 ⊢
    split_ifs with h2
    · exact (List.drop_sublist _ _).nodup hnd2
    · exact hnd2
  · intro hmem
    induction daily with
    | nil => simp [dsGet] at hmem
    | cons hd tl ih =>
      obtain ⟨k', v⟩ := hd
      by_cases hk : k' = k
      · have hv : dsGet ((k', v) :: tl) k = v := by
          simp [dsGet, hk]
        rw [hv] at hmem
        simp [addDailySeen, hk, hmem]
      · have hv : dsGet ((k', v) :: tl) k = dsGet tl k := by
          simp [dsGet, hk]
        rw [hv] at hmem
        simp [addDailySeen, hk, ih hmem]

/-- C10 witness: concrete instantiation with the id already present. -/
theorem c10_markSeen_idempotent_witness :
    markSeen ["a", "b"] "a" = ["a", "b"] ∧
    (markSeen ["a", "b"] "c").Nodup ∧
    addDailySeen [("d1", ["x"])] "d1" "x" = [("d1", ["x"])] := by
  have h := c10_markSeen_idempotent ["a", "b"] "a" [("d1", ["x"])] "d1"
  have h2 := c10_markSeen_idempotent ["a", "b"] "c" [("d1", ["x"])] "d1"
  have h3 := c10_markSeen_idempotent ["a", "b"] "x" [("d1", ["x"])] "d1"
  exact ⟨h.1 (by decide) (by decide), h2.2.1 (by decide),
         h3.2.2 (by decide)⟩

/-- C2 counterexample: for a creator referenced by a 24-hex platform id whose
profile-page scrape yields no token (`get_profile_xsec_token` returns
`(false, "", "")`), `_resolve_user` still produces an identity instead of
failing. -/
theorem c2_counterexample :
    resolveUser (false, "", "") none none
        { redId := "5ff0e6410000000001008400", name := "nm" } =
      some { userId := "5ff0e6410000000001008400", xsecToken := "",
             xsecSource := "pc_user", name := "nm" } := by
  rfl

/-- C2 (amended): for every creator reference that normalizes to a
24-character lowercase-hex platform id, when the profile-page scrape yields no
embedded security token, `_resolve_user` does NOT fail: it logs a warning and
still returns a resolved identity whose user id is the hex id, whose security
token is empty, and whose token source defaults to `pc_user`. -/
theorem c2_missing_token_still_resolves (ok : Bool) (sr sn : Option (List UserD))
    (creator : XHSCreator)
    (hhex : isProfileId (extractProfileId creator.redId) = true) :
    resolveUser (ok, "", "") sr sn creator =
      some { userId := extractProfileId creator.redId, xsecToken := "",
             xsecSource := "pc_user", name := creator.name } := by
  unfold resolveUser
  simp [hhex]

/-- C2 witness: concrete instantiation of the amended claim. -/
theorem c2_missing_token_still_resolves_witness :
    isProfileId (extractProfileId "abcdefabcdefabcdef012345") = true ∧
    resolveUser (false, "", "") none none
        { redId := "abcdefabcdefabcdef012345", name := "w" } =
      some { userId := extractProfileId "abcdefabcdefabcdef012345", xsecToken := "",
             xsecSource := "pc_user", name := "w" } :=
  ⟨by decide,
   c2_missing_token_still_resolves false none none
     { redId := "abcdefabcdefabcdef012345", name := "w" } (by decide)⟩

/-- C3 counterexample: a today-entry without a full image list whose detail
fetch fails after the whole fallback chain (a transient failure) IS marked
seen in both ledgers by `_process_today_note`, contrary to the claim. -/
theorem c3_counterexample :
    (processTodayNote { noteId := "n1", time := 1700000000000 } none
        (fun _ => true) true 5).markedSeen = true ∧
    (processTodayNote { noteId := "n1", time := 1700000000000 } none
        (fun _ => true) true 5).addedDaily = true := by
  constructor <;> rfl

/-- C3 (amended): an admitted today-entry whose detail fetch fails after the
full fallback chain leaves the image url list empty, so `_process_today_note`
treats it like an imageless post: it IS marked seen in both ledgers (and not
notified), and is therefore NOT re-attempted on the next tick. -/
theorem c3_failed_detail_marks_seen (note : NoteD) (dlOk : String → Bool)
    (hasBot : Bool) (batchSize : Nat)
    (hid : note.noteId ≠ "") (hfull : hasFullImageList note = false) :
    (processTodayNote note none dlOk hasBot batchSize).markedSeen = true ∧
    (processTodayNote note none dlOk hasBot batchSize).addedDaily = true ∧
    (processTodayNote note none dlOk hasBot batchSize).notified = false := by
  have hurls : notePreImageUrls note none = [] := by
    simp [notePreImageUrls, hfull]
  unfold processTodayNote
  rw [if_neg hid, hurls]
  split_ifs with ht hu
  · exact ⟨rfl, rfl, rfl⟩
  · exact ⟨rfl, rfl, rfl⟩
  · exact absurd rfl hu

/-- C3 witness: concrete instantiation of the amended claim. -/
theorem c3_failed_detail_marks_seen_witness :
    (processTodayNote { noteId := "w1", time := 7 } none (fun _ => false) false 5).markedSeen
        = true ∧
    (processTodayNote { noteId := "w1", time := 7 } none (fun _ => false) false 5).addedDaily
        = true ∧
    (processTodayNote { noteId := "w1", time := 7 } none (fun _ => false) false 5).notified
        = false :=
  c3_failed_detail_marks_seen { noteId := "w1", time := 7 } (fun _ => false) false 5
    (by decide) (by decide)

/-- C7: when an entry's first detail fetch fails and the token refresh against
the post's own page succeeds, `_fetch_note_detail_card` retries the detail
fetch exactly once (two attempts in total), and a successful retry (success
flag set, non-empty `items`) yields a non-none detail card. -/
theorem c7_fallback_retry (resp1 resp2 : DetailResp) (tk : String × String)
    (h1 : resp1.ok = false) (h2 : resp2.ok = true) (h3 : resp2.items ≠ []) :
    (fetchNoteDetailCard resp1 (some tk) resp2).2 = 2 ∧
    (fetchNoteDetailCard resp1 (some tk) resp2).1.isSome = true := by
  have hmain : fetchNoteDetailCard resp1 (some tk) resp2 = (respCard resp2, 2) := by
    unfold fetchNoteDetailCard
    rw [h1, h2]
    simp
  rw [hmain]
  refine ⟨rfl, ?_⟩
  unfold respCard
  cases hi : resp2.items with
  | nil => exact absurd hi h3
  | cons c rest => rfl

/-- C7 witness: concrete instantiation. -/
theorem c7_fallback_retry_witness :
    (fetchNoteDetailCard { ok := false } ("t", "s") { ok := true, items := [some {}] }).2
        = 2 ∧
    (fetchNoteDetailCard { ok := false } ("t", "s") { ok := true, items := [some {}] }).1.isSome
        = true :=
  c7_fallback_retry { ok := false } { ok := true, items := [some {}] } ("t", "s")
    rfl rfl (by decide)

/-- When a cover url resolves, `_drop_cover_image` filters exactly its
occurrences out of the url list. -/
theorem dropCoverImage_eq_filter (card : NoteCardD) (urls : List String)
    (hc : resolveCoverUrl card.cover ≠ "") :
    dropCoverImage card urls =
      urls.filter (fun u => u ≠ resolveCoverUrl card.cover) := by
  unfold dropCoverImage
  by_cases h0 : urls = []
  · subst h0
    simp
  · rw [if_neg h0, if_pos hc]

/-- C8: for every post whose cover url resolves (in particular whenever it
equals an entry of the image url list), neither the urls handed to the
summarizer nor the image references placed in the notification body contain
the cover url, and both lists preserve the relative order of the surviving
urls (they are sublists of the pre-exclusion url list). -/
theorem c8_cover_exclusion (note : NoteD) (detail : Option NoteCardD)
    (dlOk : String → Bool) (hasBot : Bool) (batchSize : Nat)
    (hc : resolveCoverUrl (noteResolvedCard note detail).cover ≠ "") :
    resolveCoverUrl (noteResolvedCard note detail).cover ∉
      (processTodayNote note detail dlOk hasBot batchSize).summarizerUrls ∧
    resolveCoverUrl (noteResolvedCard note detail).cover ∉
      (processTodayNote note detail dlOk hasBot batchSize).notifImageUrls ∧
    (processTodayNote note detail dlOk hasBot batchSize).summarizerUrls.Sublist
      (notePreImageUrls note detail) ∧
    (processTodayNote note detail dlOk hasBot batchSize).notifImageUrls.Sublist
      (processTodayNote note detail dlOk hasBot batchSize).summarizerUrls := by
  have hdl : noteDownloadedUrls note detail dlOk =
      ((notePreImageUrls note detail).filter
        (fun u => u ≠ resolveCoverUrl (noteResolvedCard note detail).cover)).filter dlOk := by
    unfold noteDownloadedUrls
    rw [dropCoverImage_eq_filter _ _ hc]
  have hnomem : resolveCoverUrl (noteResolvedCard note detail).cover ∉
      noteDownloadedUrls note detail dlOk := by
    rw [hdl]
    intro hmem
    have h1 := (List.mem_filter.mp hmem).1
    have h2 := (List.mem_filter.mp h1).2
    simp at h2
  have hsub : (noteDownloadedUrls note detail dlOk).Sublist (notePreImageUrls note detail) := by
    rw [hdl]
    exact (List.filter_sublist _).trans (List.filter_sublist _)
  unfold processTodayNote
  split_ifs with h0 h1 h2
  · exact ⟨by simp, by simp, List.nil_sublist _, List.Sublist.refl _⟩
  · exact ⟨by simp, by simp, List.nil_sublist _, List.Sublist.refl _⟩
  · exact ⟨by simp, by simp, List.nil_sublist _, List.Sublist.refl _⟩
  · refine ⟨hnomem, ?_, hsub, List.take_sublist _ _⟩
    intro hmem
    exact hnomem ((List.take_sublist _ _).mem hmem)

/-- C8 witness: a concrete post whose cover url also occurs among the image
urls; the summarizer and notification lists exclude it. -/
theorem c8_cover_exclusion_witness :
    resolveCoverUrl (noteResolvedCard
        { noteId := "n8", time := 9,
          noteCard := some { imageList := [{url := "cov"}, {url := "a"}, {url := "b"}],
                             cover := .covStr "cov" } }
        none).cover ≠ "" ∧
    "cov" ∉ (processTodayNote
        { noteId := "n8", time := 9,
          noteCard := some { imageList := [{url := "cov"}, {url := "a"}, {url := "b"}],
                             cover := .covStr "cov" } }
        none (fun _ => true) true 5).summarizerUrls := by
  have h := c8_cover_exclusion
    { noteId := "n8", time := 9,
      noteCard := some { imageList := [{url := "cov"}, {url := "a"}, {url := "b"}],
                         cover := .covStr "cov" } }
    none (fun _ => true) true 5 (by decide)
  exact ⟨by decide, h.1⟩

/-- Reading a day's ids when the head key matches. -/
theorem dsGet_cons_eq (k' : String) (v : List String) (tl : DailyMap) (dk : String)
    (h : k' = dk) : dsGet ((k', v) :: tl) dk = v := by
  simp [dsGet, h]

/-- Reading a day's ids skips a non-matching head key. -/
theorem dsGet_cons_ne (k' : String) (v : List String) (tl : DailyMap) (dk : String)
    (h : ¬ k' = dk) : dsGet ((k', v) :: tl) dk = dsGet tl dk := by
  simp [dsGet, h]

/-- Day keys commute with filtering on a key predicate. -/
theorem dayKeys_filter (d : DailyMap) (q : String → Bool) :
    dayKeys (d.filter (fun p => q p.1)) = (dayKeys d).filter q := by
  induction d with
  | nil => rfl
  | cons hd tl ih =>
    by_cases hq : q hd.1
    · simp [dayKeys, List.filter_cons, hq] at ih ⊢
      exact ih
    · simp [dayKeys, List.filter_cons, hq] at ih ⊢
      exact ih

/-- Day keys after a dict assignment: unchanged when the key exists, appended
otherwise. -/
theorem dayKeys_dsSet (daily : DailyMap) (k : String) (v : List String) :
    dayKeys (dsSet daily k v) =
      if k ∈ dayKeys daily then dayKeys daily else dayKeys daily ++ [k] := by
  induction daily with
  | nil => simp [dsSet, dayKeys]
  | cons hd tl ih =>
    obtain ⟨k', v'⟩ := hd
    by_cases hk : k' = k
    · subst hk
      simp [dsSet, dayKeys]
    · have hs : dsSet ((k', v') :: tl) k v = (k', v') :: dsSet tl k v := by
        simp [dsSet, hk]
      rw [hs]
      have hd1 : dayKeys ((k', v') :: dsSet tl k v) = k' :: dayKeys (dsSet tl k v) := rfl
      have hd2 : dayKeys ((k', v') :: tl) = k' :: dayKeys tl := rfl
      rw [hd1, hd2, ih]
      have hne : ¬ k = k' := fun he => hk he.symm
      by_cases hmem : k ∈ dayKeys tl
      · simp [hmem, hne]
      · simp [hmem, hne]

/-- A dict assignment preserves duplicate-freeness of the day keys. -/
theorem nodup_dayKeys_dsSet (daily : DailyMap) (k : String) (v : List String)
    (hnd : (dayKeys daily).Nodup) : (dayKeys (dsSet daily k v)).Nodup := by
  rw [dayKeys_dsSet]
  split_ifs with h
  · exact hnd
  · simp [List.nodup_append, hnd, h]

/-- After an overflowing `set_daily_seen`, exactly 7 day keys remain. -/
theorem setDailySeen_length_le (daily : DailyMap) (k : String) (v : List String)
    (hnd : (dayKeys daily).Nodup) : (setDailySeen daily k v).length ≤ 7 := by
  unfold setDailySeen
  split_ifs with h7
  swap
  · omega
  have hndk : (dayKeys (dsSet daily k v)).Nodup := nodup_dayKeys_dsSet daily k v hnd
  set d := dsSet daily k v with hd
  have h1 : dayKeys (d.filter (fun p => !((evictKeys d).contains p.1)))
      = (dayKeys d).filter (fun x => !((evictKeys d).contains x)) :=
    dayKeys_filter d (fun x => !((evictKeys d).contains x))
  have h2 : (d.filter (fun p => !((evictKeys d).contains p.1))).length
      = ((dayKeys d).filter (fun x => !((evictKeys d).contains x))).length := by
    rw [← h1]
    exact (List.length_map _ _).symm
  rw [h2]
  have hperm : List.Perm (List.insertionSort keyLeR (dayKeys d))
      (dayKeys d) := List.perm_insertionSort _ _
  set S := List.insertionSort keyLeR (dayKeys d) with hS
  have hev : evictKeys d = S.take (S.length - 7) := rfl
  rw [hev]
  have hpermf : List.Perm
      (S.filter (fun x => !((S.take (S.length - 7)).contains x)))
      ((dayKeys d).filter (fun x => !((S.take (S.length - 7)).contains x))) :=
    hperm.filter _
  rw [← hpermf.length_eq]
  have hndS : S.Nodup := hperm.nodup_iff.mpr hndk
  have hdisj : (S.take (S.length - 7)).Disjoint (S.drop (S.length - 7)) := by
    have h := hndS
    rw [← List.take_append_drop (S.length - 7) S] at h
    exact (List.nodup_append.mp h).2.2
  have hsplit : S.filter (fun x => !((S.take (S.length - 7)).contains x))
      = (S.take (S.length - 7)).filter (fun x => !((S.take (S.length - 7)).contains x))
        ++ (S.drop (S.length - 7)).filter (fun x => !((S.take (S.length - 7)).contains x)) := by
    rw [← List.filter_append, List.take_append_drop]
  have htake : (S.take (S.length - 7)).filter
      (fun x => !((S.take (S.length - 7)).contains x)) = [] := by
    apply List.filter_eq_nil_iff.mpr
    intro x hx
    simp only [Bool.not_eq_true, Bool.not_eq_false]
    simpa using hx
  have hdrop : (S.drop (S.length - 7)).filter
      (fun x => !((S.take (S.length - 7)).contains x)) = S.drop (S.length - 7) := by
    apply List.filter_eq_self.mpr
    intro x hx
    simp only [Bool.not_eq_true', ← Bool.not_eq_true]
    intro hcon
    exact hdisj (by simpa using hcon) hx
  rw [hsplit, htake, hdrop]
  simp only [List.nil_append, List.length_drop]
  omega

/-- Every key evicted by an overflowing `set_daily_seen` is strictly smaller
(older, by day-key order) than every surviving key. -/
theorem setDailySeen_evicts_oldest (daily : DailyMap) (k : String) (v : List String)
    (k1 k2 : String) (hnd : (dayKeys daily).Nodup)
    (h1 : k1 ∈ dayKeys (dsSet daily k v))
    (h2 : k1 ∉ dayKeys (setDailySeen daily k v))
    (h3 : k2 ∈ dayKeys (setDailySeen daily k v)) :
    keyLe k1 k2 = true ∧ k1 ≠ k2 := by
  unfold setDailySeen at h2 h3
  split_ifs at h2 h3 with h7
  swap
  · exact absurd h1 h2
  have hndk : (dayKeys (dsSet daily k v)).Nodup := nodup_dayKeys_dsSet daily k v hnd
  set d := dsSet daily k v with hd
  rw [dayKeys_filter d (fun x => !((evictKeys d).contains x))] at h2 h3
  have hperm : List.Perm (List.insertionSort keyLeR (dayKeys d))
      (dayKeys d) := List.perm_insertionSort _ _
  set S := List.insertionSort keyLeR (dayKeys d) with hS
  have hev : evictKeys d = S.take (S.length - 7) := rfl
  rw [hev] at h2 h3
  have hndS : S.Nodup := hperm.nodup_iff.mpr hndk
  have hdisj : (S.take (S.length - 7)).Disjoint (S.drop (S.length - 7)) := by
    have h := hndS
    rw [← List.take_append_drop (S.length - 7) S] at h
    exact (List.nodup_append.mp h).2.2
  have hk1take : k1 ∈ S.take (S.length - 7) := by
    by_contra hk1
    apply h2
    apply List.mem_filter.mpr
    refine ⟨h1, ?_⟩
    simp only [Bool.not_eq_true']
    by_contra hcon
    exact hk1 (by simpa using (Bool.not_eq_false _).mp hcon)
  have hk2keys : k2 ∈ dayKeys d := (List.mem_filter.mp h3).1
  have hk2q : ¬ k2 ∈ S.take (S.length - 7) := by
    have hq := (List.mem_filter.mp h3).2
    intro hcon
    have hc : (S.take (S.length - 7)).contains k2 = true := by simpa using hcon
    rw [hc] at hq
    simp at hq
  have hk2S : k2 ∈ S := hperm.mem_iff.mpr hk2keys
  have hk2split : k2 ∈ S.take (S.length - 7) ++ S.drop (S.length - 7) := by
    rw [List.take_append_drop (S.length - 7) S]
    exact hk2S
  have hk2drop : k2 ∈ S.drop (S.length - 7) := by
    rcases List.mem_append.mp hk2split with h | h
    · exact absurd h hk2q
    · exact h
  have hsor : S.Sorted keyLeR := by
    rw [hS]
    exact List.sorted_insertionSort _ _
  have hle : keyLeR k1 k2 :=
    List.Pairwise.rel_of_mem_take_of_mem_drop hsor hk1take hk2drop
  have hne : k1 ≠ k2 := fun he => hdisj (he ▸ hk1take) hk2drop
  exact ⟨hle, hne⟩

/-- `add_daily_seen` never removes a previously recorded id from any day. -/
theorem addDailySeen_preserves_mem (daily : DailyMap) (kAdd idv dk x : String)
    (hx : x ∈ dsGet daily dk) : x ∈ dsGet (addDailySeen daily kAdd idv) dk := by
  induction daily with
  | nil => simp [dsGet] at hx
  | cons hd tl ih =>
    obtain ⟨k', v⟩ := hd
    by_cases hk : k' = kAdd
    · have hstep : addDailySeen ((k', v) :: tl) kAdd idv
          = (k', if idv ∈ v then v else v ++ [idv]) :: tl := by
        simp [addDailySeen, hk]
      by_cases hdk : k' = dk
      · rw [dsGet_cons_eq _ _ _ _ hdk] at hx
        rw [hstep, dsGet_cons_eq _ _ _ _ hdk]
        split_ifs with hi
        · exact hx
        · exact List.mem_append_left _ hx
      · rw [dsGet_cons_ne _ _ _ _ hdk] at hx
        rw [hstep, dsGet_cons_ne _ _ _ _ hdk]
        exact hx
    · have hstep : addDailySeen ((k', v) :: tl) kAdd idv
          = (k', v) :: addDailySeen tl kAdd idv := by
        simp [addDailySeen, hk]
      by_cases hdk : k' = dk
      · rw [dsGet_cons_eq _ _ _ _ hdk] at hx
        rw [hstep, dsGet_cons_eq _ _ _ _ hdk]
        exact hx
      · rw [dsGet_cons_ne _ _ _ _ hdk] at hx
        rw [hstep, dsGet_cons_ne _ _ _ _ hdk]
        exact ih hx

/-- C6 counterexample: eight `addDailySeen` calls with distinct day keys leave
eight day keys — `add_daily_seen` never enforces the 7-key cap, so the claimed
invariant over arbitrary interleavings fails. -/
theorem c6_counterexample :
    ¬ ((dayKeys (List.foldl (fun d dk => addDailySeen d dk "x") ([] : DailyMap)
        ["d1", "d2", "d3", "d4", "d5", "d6", "d7", "d8"])).length ≤ 7) := by
  decide

/-- C6 (amended): only `setDailyBaseline` enforces the day-key cap — after any
`set_daily_seen` on a duplicate-free map at most 7 day keys remain, and the
evicted keys are exactly the oldest ones (every evicted key is strictly
smaller, by key order, than every survivor); `add_daily_seen` never removes a
previously added id from any day (but also never evicts, so it alone can push
the key count beyond 7, as the counterexample shows). -/
theorem c6_daily_cap_amended (daily : DailyMap) (k dk kAdd idv x k1 k2 : String)
    (v : List String) :
    ((dayKeys daily).Nodup → (setDailySeen daily k v).length ≤ 7) ∧
    (x ∈ dsGet daily dk → x ∈ dsGet (addDailySeen daily kAdd idv) dk) ∧
    ((dayKeys daily).Nodup → k1 ∈ dayKeys (dsSet daily k v) →
      k1 ∉ dayKeys (setDailySeen daily k v) → k2 ∈ dayKeys (setDailySeen daily k v) →
      keyLe k1 k2 = true ∧ k1 ≠ k2) :=
  ⟨fun hnd => setDailySeen_length_le daily k v hnd,
   fun hx => addDailySeen_preserves_mem daily kAdd idv dk x hx,
   fun hnd h1 h2 h3 => setDailySeen_evicts_oldest daily k v k1 k2 hnd h1 h2 h3⟩

/-- C6 witness: concrete instantiation on a 7-day map receiving an 8th day. -/
theorem c6_daily_cap_amended_witness :
    (setDailySeen [("d1", ["a"]), ("d2", ["a"]), ("d3", ["a"]), ("d4", ["a"]),
        ("d5", ["a"]), ("d6", ["a"]), ("d7", ["a"])] "d8" ["b"]).length ≤ 7 ∧
    "a" ∈ dsGet (addDailySeen [("d1", ["a"]), ("d2", ["a"]), ("d3", ["a"]), ("d4", ["a"]),
        ("d5", ["a"]), ("d6", ["a"]), ("d7", ["a"])] "d1" "z") "d1" ∧
    (keyLe "d1" "d2" = true ∧ "d1" ≠ "d2") := by
  have h := c6_daily_cap_amended
    [("d1", ["a"]), ("d2", ["a"]), ("d3", ["a"]), ("d4", ["a"]),
     ("d5", ["a"]), ("d6", ["a"]), ("d7", ["a"])]
    "d8" "d1" "d1" "z" "a" "d1" "d2" ["b"]
  exact ⟨h.1 (by decide), h.2.1 (by decide),
         h.2.2 (by decide) (by decide) (by decide) (by decide)⟩

/-- Every note handed to `_process_today_note` by a `process_creator` tick
passed the today-filter. -/
theorem processCreator_processed_mem (notes : List NoteD) (isToday : Nat → Bool)
    (seenToday allSeen : List String) (n : NoteD)
    (hn : n ∈ (processCreator notes isToday seenToday allSeen).processed) :
    n ∈ todayNotesOf notes isToday := by
  simp only [processCreator] at hn
  split_ifs at hn with h0 h1 h2
  · simp at hn
  · have h3 : n ∈ (List.insertionSort (timeKeyDesc (noteTimeMap (todayNotesOf notes isToday)))
        (todayNotesOf notes isToday)).take 3 := by
      simpa using (List.mem_insertionSort _).mp hn
    have h4 := (List.take_sublist _ _).mem h3
    exact (List.mem_insertionSort _).mp h4
  · simp at hn
  · have h3 : (n ∈ todayNotesOf notes isToday ∧ n.noteId ∉ seenToday) ∧ n.noteId ∉ allSeen := by
      simpa using hn
    exact h3.1.1

/-- C9: unknown-timestamp admission divergence: the monitoring path's
today-filter only admits entries with a truthy (non-zero) effective publish
time, so `process_creator` never processes an unknown-timestamp entry; the
single-note test path, in contrast, keeps an unknown-timestamp note as
first-seen candidate when no candidate exists yet. -/
theorem c9_unknown_timestamp_divergence :
    (∀ (notes : List NoteD) (isToday : Nat → Bool) (seenToday allSeen : List String)
        (n : NoteD), n ∈ (processCreator notes isToday seenToday allSeen).processed →
        effNoteTime n ≠ 0 ∧ isToday (effNoteTime n) = true) ∧
    (testLatestSelect (fun _ => none)
        [{ noteId := "u1", imageList := [{ url := "img1" }] }] =
      some { noteId := "u1", card := {}, imageUrls := ["img1"] } ∧
     effNoteTime { noteId := "u1", imageList := [{ url := "img1" }] } = 0) := by
  refine ⟨?_, rfl, rfl⟩
  intro notes isToday seenToday allSeen n hn
  have h := processCreator_processed_mem notes isToday seenToday allSeen n hn
  have h2 := (List.mem_filter.mp h).2
  simp only [Bool.and_eq_true, bne_iff_ne, ne_eq] at h2
  exact ⟨h2.1.2, h2.2⟩

/-- C9 witness: a concrete admitted note, showing the today-filter facts. -/
theorem c9_unknown_timestamp_divergence_witness :
    effNoteTime { noteId := "a1", time := 5 } ≠ 0 ∧
    (fun _ => true) (effNoteTime ({ noteId := "a1", time := 5 } : NoteD)) = true :=
  c9_unknown_timestamp_divergence.1 [{ noteId := "a1", time := 5 }]
    (fun _ => true) [] [] { noteId := "a1", time := 5 } (by decide)

/-- Division step matching one peeled chunk. -/
theorem chunk_div_step (n b : Nat) (hn : 1 ≤ n) (hb : 1 ≤ b) :
    (n + b - 1) / b = 1 + (n - b + b - 1) / b := by
  have hkey : n + b - 1 = (n - 1) + b := by omega
  rw [hkey, Nat.add_div_right _ (by omega)]
  rcases le_or_lt n b with h | h
  · have h1 : n - b = 0 := by omega
    rw [h1]
    rw [Nat.div_eq_of_lt (by omega : 0 + b - 1 < b)]
    rw [Nat.div_eq_of_lt (by omega : n - 1 < b)]
  · have h2 : n - b + b - 1 = n - 1 := by omega
    rw [h2]
    exact Nat.add_comm _ _

/-- The chunking worker concatenates back to the input list. -/
theorem chunkImagesAux_flatten (size : Nat) (hb : 1 ≤ size) :
    ∀ (fuel : Nat) (l : List Img), l.length ≤ fuel →
      (chunkImagesAux size fuel l).flatten = l := by
  intro fuel
  induction fuel with
  | zero =>
    intro l hl
    have h0 : l = [] := List.eq_nil_of_length_eq_zero (by omega)
    subst h0
    rfl
  | succ fuel ih =>
    intro l hl
    cases l with
    | nil => rfl
    | cons c cs =>
      show ((c :: cs).take size :: chunkImagesAux size fuel ((c :: cs).drop size)).flatten
          = c :: cs
      rw [List.flatten_cons]
      rw [ih ((c :: cs).drop size) (by rw [List.length_drop]; omega)]
      exact List.take_append_drop size (c :: cs)

/-- The chunking worker produces exactly `ceil(length / size)` chunks. -/
theorem chunkImagesAux_length (size : Nat) (hb : 1 ≤ size) :
    ∀ (fuel : Nat) (l : List Img), l.length ≤ fuel →
      (chunkImagesAux size fuel l).length = (l.length + size - 1) / size := by
  intro fuel
  induction fuel with
  | zero =>
    intro l hl
    have h0 : l = [] := List.eq_nil_of_length_eq_zero (by omega)
    subst h0
    show 0 = (0 + size - 1) / size
    rw [Nat.div_eq_of_lt (by omega)]
  | succ fuel ih =>
    intro l hl
    cases l with
    | nil =>
      show 0 = (0 + size - 1) / size
      rw [Nat.div_eq_of_lt (by omega)]
    | cons c cs =>
      show ((c :: cs).take size :: chunkImagesAux size fuel ((c :: cs).drop size)).length
          = ((c :: cs).length + size - 1) / size
      rw [List.length_cons, ih ((c :: cs).drop size) (by rw [List.length_drop]; omega)]
      rw [List.length_drop]
      rw [chunk_div_step (c :: cs).length size (by simp) hb]
      omega

/-- Every chunk produced by the worker holds at most `size` images. -/
theorem chunkImagesAux_mem_le (size : Nat) :
    ∀ (fuel : Nat) (l : List Img) (c : List Img),
      c ∈ chunkImagesAux size fuel l → c.length ≤ size := by
  intro fuel
  induction fuel with
  | zero =>
    intro l c hc
    simp [chunkImagesAux] at hc
  | succ fuel ih =>
    intro l c hc
    cases l with
    | nil => simp [chunkImagesAux] at hc
    | cons a as =>
      have hc2 : c ∈ (a :: as).take size :: chunkImagesAux size fuel ((a :: as).drop size) := hc
      rcases List.mem_cons.mp hc2 with h | h
      · subst h
        rw [List.length_take]
        exact Nat.min_le_left _ _
      · exact ih _ c h

/-- `_chunk_images` concatenates back to the input list (for a positive size). -/
theorem chunkImages_flatten (l : List Img) (b : Nat) (hb : 1 ≤ b) :
    (chunkImages l b).flatten = l := by
  unfold chunkImages
  rw [if_neg (by omega)]
  exact chunkImagesAux_flatten b hb l.length l (Nat.le_refl _)

/-- `_chunk_images` produces exactly `ceil(n / b)` chunks (for a positive size). -/
theorem chunkImages_length_eq (l : List Img) (b : Nat) (hb : 1 ≤ b) :
    (chunkImages l b).length = (l.length + b - 1) / b := by
  unfold chunkImages
  rw [if_neg (by omega)]
  exact chunkImagesAux_length b hb l.length l (Nat.le_refl _)

/-- `_chunk_images` produces chunks of at most `b` images (for a positive size). -/
theorem chunkImages_mem_le (l : List Img) (b : Nat) (hb : 1 ≤ b) (c : List Img)
    (hc : c ∈ chunkImages l b) : c.length ≤ b := by
  unfold chunkImages at hc
  rw [if_neg (by omega)] at hc
  exact chunkImagesAux_mem_le b l.length l c hc

/-- Appending one call updates the running last-good summary by that call's
outcome. -/
theorem lastGoodOut_append (oracle : List Img → String → Option String)
    (calls : List AICall) (c : AICall) :
    lastGoodOut oracle (calls ++ [c]) =
      (match oracle c.imgs c.hint with
       | some t => if t ≠ "" then t else lastGoodOut oracle calls
       | none => lastGoodOut oracle calls) := by
  unfold lastGoodOut
  rw [List.foldl_append]
  rfl

/-- Full characterization of the multi-chunk loop: it appends one call per
chunk (with the chunk as payload), each call's hint is derived from the
last-good summary of the calls before it, and the returned summary is the
last-good summary of all calls. -/
theorem summarizeBatchesLoop_spec (oracle : List Img → String → Option String)
    (textHint : String) (hor : ∀ c h, oracle c h ≠ some "")
    (batches : List (List Img)) :
    ∀ (calls0 : List AICall) (p : String), p = lastGoodOut oracle calls0 →
    ∀ (last : String) (calls : List AICall),
      summarizeBatchesLoop oracle textHint batches p p calls0 = (last, calls) →
      calls.length = calls0.length + batches.length ∧
      calls.map (fun c => c.imgs) = calls0.map (fun c => c.imgs) ++ batches ∧
      last = lastGoodOut oracle calls ∧
      calls.take calls0.length = calls0 ∧
      (∀ i, calls0.length ≤ i → ∀ hi : i < calls.length,
        (calls.get ⟨i, hi⟩).hint = hintSpec textHint (lastGoodOut oracle (calls.take i))) := by
  induction batches with
  | nil =>
    intro calls0 p hp last calls heq
    have h : (p, calls0) = (last, calls) := heq
    have hl : p = last := congrArg Prod.fst h
    have hc : calls0 = calls := congrArg Prod.snd h
    subst hl
    subst hc
    refine ⟨by simp, by simp, hp, List.take_length _, ?_⟩
    intro i hge hi
    omega
  | cons batch rest ih =>
    intro calls0 p hp last calls heq
    set hint := if p ≠ "" then mergedHint textHint p else textHint with hhint
    have hhintSpec : hint = hintSpec textHint p := rfl
    have hstep : summarizeBatchesLoop oracle textHint (batch :: rest) p p calls0
        = (match oracle batch hint with
           | some t =>
               if t ≠ "" then
                 summarizeBatchesLoop oracle textHint rest t t (calls0 ++ [⟨batch, hint⟩])
               else
                 summarizeBatchesLoop oracle textHint rest p p (calls0 ++ [⟨batch, hint⟩])
           | none =>
               summarizeBatchesLoop oracle textHint rest p p (calls0 ++ [⟨batch, hint⟩])) := by
      rfl
    have hfromIH : ∀ (p' : String),
        p' = lastGoodOut oracle (calls0 ++ [⟨batch, hint⟩]) →
        summarizeBatchesLoop oracle textHint rest p' p' (calls0 ++ [⟨batch, hint⟩])
          = (last, calls) →
        calls.length = calls0.length + (batch :: rest).length ∧
        calls.map (fun c => c.imgs) = calls0.map (fun c => c.imgs) ++ (batch :: rest) ∧
        last = lastGoodOut oracle calls ∧
        calls.take calls0.length = calls0 ∧
        (∀ i, calls0.length ≤ i → ∀ hi : i < calls.length,
          (calls.get ⟨i, hi⟩).hint = hintSpec textHint (lastGoodOut oracle (calls.take i))) := by
      intro p' hp' heq'
      obtain ⟨hlen, hmap, hlast, htake, hhints⟩ :=
        ih (calls0 ++ [⟨batch, hint⟩]) p' hp' last calls heq'
      have hlen0 : (calls0 ++ [(⟨batch, hint⟩ : AICall)]).length = calls0.length + 1 := by
        simp
      have htake1 : calls.take (calls0.length + 1) = calls0 ++ [⟨batch, hint⟩] := by
        rw [← hlen0]
        exact htake
      refine ⟨?_, ?_, hlast, ?_, ?_⟩
      · rw [hlen, hlen0]
        simp
        omega
      · rw [hmap]
        simp
      · have h1 : calls.take calls0.length
            = (calls.take (calls0.length + 1)).take calls0.length := by
          rw [List.take_take]
          congr 1
          omega
        rw [h1, htake1]
        exact List.take_left _ _
      · intro i hge hi
        rcases Nat.eq_or_lt_of_le hge with hieq | hilt
        · have hgetc : calls.get ⟨i, hi⟩ = ⟨batch, hint⟩ := by
            have hb1 : i < (calls.take (calls0.length + 1)).length := by
              rw [htake1, hlen0]
              omega
            have hb2 : i < (calls0 ++ [(⟨batch, hint⟩ : AICall)]).length := by
              rw [hlen0]
              omega
            have h2 : (calls.take (calls0.length + 1))[i] = calls[i] :=
              List.getElem_take calls
            have h3 : (calls0 ++ [(⟨batch, hint⟩ : AICall)])[i]
                = (⟨batch, hint⟩ : AICall) :=
              List.getElem_concat_length calls0 ⟨batch, hint⟩ i hieq.symm _
            have h4 : (calls.take (calls0.length + 1))[i]
                = (calls0 ++ [(⟨batch, hint⟩ : AICall)])[i] := by
              congr 1
            rw [List.get_eq_getElem, ← h2, h4, h3]
          rw [hgetc]
          have htki : calls.take i = calls0 := by
            have h5 : calls.take i = (calls.take (calls0.length + 1)).take i := by
              rw [List.take_take]
              congr 1
              omega
            rw [h5, htake1, ← hieq]
            exact List.take_left _ _
          rw [htki, ← hp, ← hhintSpec]
        · exact hhints i (by rw [hlen0]; omega) hi
    rw [hstep] at heq
    cases ho : oracle batch hint with
    | none =>
      rw [ho] at heq
      dsimp only at heq
      refine hfromIH p ?_ heq
      rw [lastGoodOut_append, ho]
      exact hp
    | some t =>
      rw [ho] at heq
      dsimp only at heq
      by_cases ht : t = ""
      · exact absurd (ht ▸ ho) (hor batch hint)
      · rw [if_pos ht] at heq
        refine hfromIH t ?_ heq
        rw [lastGoodOut_append, ho]
        simp [ht]

/-- C4: chunked summarization shape: on a non-empty image list with batch
size `b ≥ 1`, `_summarize_images_in_batches` makes exactly `ceil(n / b)` AI
calls, whose payloads are exactly the contiguous order-preserving chunks of at
most `b` images; each call's hint carries the most recent successful previous
call's full output as merge context (plain hint when none succeeded yet); the
returned summary is the last successful call's output, `none` when no call
succeeds; and an empty image list yields `none` with no call at all. The
hypothesis on `oracle` states that the AI collaborator either fails or
returns non-empty text. -/
theorem c4_chunked_summarization (oracle : List Img → String → Option String)
    (images : List Img) (textHint : String) (b : Nat)
    (himg : images ≠ []) (hb : 1 ≤ b) (hor : ∀ c h, oracle c h ≠ some "") :
    (summarizeImagesInBatches oracle images textHint b).2.length
      = (images.length + b - 1) / b ∧
    (summarizeImagesInBatches oracle images textHint b).2.map (fun c => c.imgs)
      = chunkImages images b ∧
    (chunkImages images b).flatten = images ∧
    (∀ ch ∈ chunkImages images b, ch.length ≤ b) ∧
    (∀ i, ∀ hi : i < (summarizeImagesInBatches oracle images textHint b).2.length,
      ((summarizeImagesInBatches oracle images textHint b).2.get ⟨i, hi⟩).hint
        = hintSpec textHint (lastGoodOut oracle
            ((summarizeImagesInBatches oracle images textHint b).2.take i))) ∧
    (summarizeImagesInBatches oracle images textHint b).1
      = (if lastGoodOut oracle (summarizeImagesInBatches oracle images textHint b).2 ≠ ""
         then some (lastGoodOut oracle (summarizeImagesInBatches oracle images textHint b).2)
         else none) ∧
    (∀ th : String, summarizeImagesInBatches oracle [] th b = (none, [])) := by
  have hmax : max 1 b = b := Nat.max_eq_right hb
  by_cases h1 : (chunkImages images b).length = 1
  · -- single-chunk path
    have hr : summarizeImagesInBatches oracle images textHint b
        = (oracle ((chunkImages images b).headD []) textHint,
           [⟨(chunkImages images b).headD [], textHint⟩]) := by
      unfold summarizeImagesInBatches
      rw [hmax, if_neg himg, if_pos h1]
    have hbatches : chunkImages images b = [(chunkImages images b).headD []] := by
      cases hcb : chunkImages images b with
      | nil => rw [hcb] at h1; simp at h1
      | cons a t =>
        rw [hcb] at h1
        simp at h1
        subst h1
        rfl
    have hlast1 : ∀ t : String, t ≠ "" →
        oracle ((chunkImages images b).headD []) textHint = some t →
        lastGoodOut oracle [⟨(chunkImages images b).headD [], textHint⟩] = t := by
      intro t ht ho
      unfold lastGoodOut
      simp only [List.foldl_cons, List.foldl_nil, ho]
      rw [if_pos ht]
    refine ⟨?_, ?_, chunkImages_flatten images b hb,
            fun ch hch => chunkImages_mem_le images b hb ch hch, ?_, ?_, ?_⟩
    · rw [hr]
      show 1 = (images.length + b - 1) / b
      rw [← chunkImages_length_eq images b hb, h1]
    · rw [hr]
      show [(chunkImages images b).headD []] = chunkImages images b
      exact hbatches.symm
    · rw [hr]
      intro i hi
      have hi0 : i = 0 := by
        simp at hi
        omega
      subst hi0
      rfl
    · rw [hr]
      show oracle ((chunkImages images b).headD []) textHint
          = (if lastGoodOut oracle [⟨(chunkImages images b).headD [], textHint⟩] ≠ ""
             then some (lastGoodOut oracle [⟨(chunkImages images b).headD [], textHint⟩])
             else none)
      cases ho : oracle ((chunkImages images b).headD []) textHint with
      | none =>
        have hlg : lastGoodOut oracle [⟨(chunkImages images b).headD [], textHint⟩] = "" := by
          unfold lastGoodOut
          simp only [List.foldl_cons, List.foldl_nil, ho]
        rw [hlg]
        rfl
      | some t =>
        have ht : t ≠ "" := by
          intro he
          exact hor _ _ (he ▸ ho)
        rw [hlast1 t ht ho, if_pos ht]
    · intro th
      simp [summarizeImagesInBatches]
  · -- multi-chunk path
    have hr : summarizeImagesInBatches oracle images textHint b
        = (if (summarizeBatchesLoop oracle textHint (chunkImages images b) "" "" []).1 ≠ ""
           then some (summarizeBatchesLoop oracle textHint (chunkImages images b) "" "" []).1
           else none,
           (summarizeBatchesLoop oracle textHint (chunkImages images b) "" "" []).2) := by
      unfold summarizeImagesInBatches
      rw [hmax, if_neg himg, if_neg h1]
    obtain ⟨hlen, hmap, hlast, _, hhints⟩ :=
      summarizeBatchesLoop_spec oracle textHint hor (chunkImages images b) [] "" rfl
        (summarizeBatchesLoop oracle textHint (chunkImages images b) "" "" []).1
        (summarizeBatchesLoop oracle textHint (chunkImages images b) "" "" []).2
        rfl
    refine ⟨?_, ?_, chunkImages_flatten images b hb,
            fun ch hch => chunkImages_mem_le images b hb ch hch, ?_, ?_, ?_⟩
    · rw [hr]
      show (summarizeBatchesLoop oracle textHint (chunkImages images b) "" "" []).2.length
          = (images.length + b - 1) / b
      rw [hlen]
      simp only [List.length_nil, Nat.zero_add]
      exact chunkImages_length_eq images b hb
    · rw [hr]
      show (summarizeBatchesLoop oracle textHint (chunkImages images b) "" "" []).2.map
          (fun c => c.imgs) = chunkImages images b
      rw [hmap]
      simp
    · rw [hr]
      intro i hi
      exact hhints i (Nat.zero_le i) hi
    · rw [hr]
      show (if (summarizeBatchesLoop oracle textHint (chunkImages images b) "" "" []).1 ≠ ""
            then some (summarizeBatchesLoop oracle textHint (chunkImages images b) "" "" []).1
            else none) = _
      rw [hlast]
    · intro th
      simp [summarizeImagesInBatches]

/-- C4 witness: the spec's own scenario, 12 images with batch size 5 and an
always-succeeding AI collaborator. -/
theorem c4_chunked_summarization_witness :
    (["i1", "i2", "i3", "i4", "i5", "i6", "i7", "i8", "i9", "i10", "i11", "i12"]
        : List Img) ≠ [] ∧
    (summarizeImagesInBatches (fun _ _ => some "s")
        ["i1", "i2", "i3", "i4", "i5", "i6", "i7", "i8", "i9", "i10", "i11", "i12"]
        "T" 5).2.length
      = ((["i1", "i2", "i3", "i4", "i5", "i6", "i7", "i8", "i9", "i10", "i11", "i12"]
          : List Img).length + 5 - 1) / 5 := by
  have h := c4_chunked_summarization (fun _ _ => some "s")
    ["i1", "i2", "i3", "i4", "i5", "i6", "i7", "i8", "i9", "i10", "i11", "i12"] "T" 5
    (by decide) (by decide) (by intro c hh he; simp at he)
  exact ⟨by decide, h.1⟩

/-- Inserting a key absent from the map appends the entry at the end. -/
theorem mapInsert_fresh (m : List (String × Nat)) (k : String) (v : Nat)
    (h : ∀ p ∈ m, p.1 ≠ k) : mapInsert m k v = m ++ [(k, v)] := by
  have hany : m.any (fun p => p.1 == k) = false := by
    rw [List.any_eq_false]
    intro p hp
    simpa using h p hp
  unfold mapInsert
  rw [hany]
  simp

/-- Building the note-time map over notes with duplicate-free ids yields one
entry per note, in order. -/
theorem noteTimeMap_foldl (t : List NoteD) :
    ∀ acc : List (String × Nat),
      (∀ n ∈ t, ∀ p ∈ acc, p.1 ≠ n.noteId) →
      ((t.map (fun n => n.noteId)).Nodup) →
      t.foldl (fun m n => mapInsert m n.noteId (effNoteTime n)) acc
        = acc ++ t.map (fun n => (n.noteId, effNoteTime n)) := by
  induction t with
  | nil =>
    intro acc _ _
    simp
  | cons n t ih =>
    intro acc hfresh hnd
    simp only [List.map_cons, List.nodup_cons] at hnd
    have hstep : mapInsert acc n.noteId (effNoteTime n) = acc ++ [(n.noteId, effNoteTime n)] :=
      mapInsert_fresh acc n.noteId (effNoteTime n)
        (fun p hp => hfresh n (List.mem_cons_self n t) p hp)
    show List.foldl _ (mapInsert acc n.noteId (effNoteTime n)) t = _
    rw [hstep]
    rw [ih (acc ++ [(n.noteId, effNoteTime n)]) ?_ hnd.2]
    · simp
    · intro n' hn' p hp
      rcases List.mem_append.mp hp with hpacc | hpnew
      · exact hfresh n' (List.mem_cons_of_mem n hn') p hpacc
      · rw [List.mem_singleton] at hpnew
        subst hpnew
        show n.noteId ≠ n'.noteId
        intro he
        apply hnd.1
        rw [he]
        exact List.mem_map.mpr ⟨n', hn', rfl⟩

/-- Looking up a note's id in the paired map finds its own entry when ids are
duplicate-free. -/
theorem find?_pair_map (t : List NoteD) (n : NoteD) :
    ∀ (_hnd : (t.map (fun x => x.noteId)).Nodup) (_hn : n ∈ t),
      (t.map (fun x => (x.noteId, effNoteTime x))).find? (fun p => p.1 == n.noteId)
        = some (n.noteId, effNoteTime n) := by
  induction t with
  | nil =>
    intro _ hn
    simp at hn
  | cons m t ih =>
    intro hnd hn
    simp only [List.map_cons, List.nodup_cons] at hnd
    by_cases hm : m.noteId = n.noteId
    · rcases List.mem_cons.mp hn with he | ht
      · subst he
        simp only [List.map_cons]
        rw [List.find?_cons_of_pos _ (by simp)]
      · exfalso
        apply hnd.1
        rw [hm]
        exact List.mem_map.mpr ⟨n, ht, rfl⟩
    · simp only [List.map_cons]
      rw [List.find?_cons_of_neg _ (by simpa using hm)]
      rcases List.mem_cons.mp hn with he | ht
      · exact absurd (he ▸ rfl) hm
      · exact ih hnd.2 ht

/-- On today-notes with duplicate-free ids, the `note_time_map` lookup of a
note's id is its own effective publish time. -/
theorem mapLookup_noteTimeMap (t : List NoteD)
    (hnd : (t.map (fun x => x.noteId)).Nodup) (n : NoteD) (hn : n ∈ t) :
    mapLookup (noteTimeMap t) n.noteId = effNoteTime n := by
  have hmap : noteTimeMap t = t.map (fun x => (x.noteId, effNoteTime x)) := by
    have h := noteTimeMap_foldl t [] (by simp) hnd
    simpa [noteTimeMap] using h
  rw [hmap]
  unfold mapLookup
  rw [find?_pair_map t n hnd hn]

/-- C1: first-run admission policy: on a tick whose daily baseline for today
is empty and whose feed has at least one today-entry (with duplicate-free
ids), `process_creator` records as baseline the ids of ALL today-entries, and
processes exactly `min 3 n` entries, in chronological (oldest-first) order;
those entries together with the unprocessed remainder form a permutation of
all today-entries, and every unprocessed entry's publish time is at most every
processed entry's (the processed ones are the most recent). -/
theorem c1_first_run_admission (notes : List NoteD) (isToday : Nat → Bool)
    (allSeen : List String)
    (hne : todayNotesOf notes isToday ≠ [])
    (hnd : ((todayNotesOf notes isToday).map (fun n => n.noteId)).Nodup) :
    (processCreator notes isToday [] allSeen).baselineSet
      = some ((todayNotesOf notes isToday).map (fun n => n.noteId)) ∧
    (processCreator notes isToday [] allSeen).processed.length
      = min 3 (todayNotesOf notes isToday).length ∧
    (processCreator notes isToday [] allSeen).processed.Sorted
      (fun a b => effNoteTime a ≤ effNoteTime b) ∧
    ∃ rest : List NoteD,
      List.Perm ((processCreator notes isToday [] allSeen).processed ++ rest)
        (todayNotesOf notes isToday) ∧
      ∀ p ∈ (processCreator notes isToday [] allSeen).processed, ∀ q ∈ rest,
        effNoteTime q ≤ effNoteTime p := by
  have hkey : ∀ n ∈ todayNotesOf notes isToday,
      mapLookup (noteTimeMap (todayNotesOf notes isToday)) n.noteId = effNoteTime n :=
    fun n hn => mapLookup_noteTimeMap (todayNotesOf notes isToday) hnd n hn
  have hc1 : ((todayNotesOf notes isToday).map (fun n => n.noteId)).isEmpty = false := by
    simp [List.isEmpty_iff, hne]
  have hr : processCreator notes isToday [] allSeen
      = { processed := List.insertionSort (timeKeyAsc (noteTimeMap (todayNotesOf notes isToday)))
            ((List.insertionSort (timeKeyDesc (noteTimeMap (todayNotesOf notes isToday)))
              (todayNotesOf notes isToday)).take 3),
          baselineSet := some ((todayNotesOf notes isToday).map (fun n => n.noteId)) } := by
    simp only [processCreator, hc1]
    rfl
  rw [hr]
  set t := todayNotesOf notes isToday with htdef
  set m := noteTimeMap t with hmdef
  set D := List.insertionSort (timeKeyDesc m) t with hDdef
  set P := List.insertionSort (timeKeyAsc m) (D.take 3) with hPdef
  have hPpermTake : List.Perm P (D.take 3) := List.perm_insertionSort _ _
  have hDperm : List.Perm D t := List.perm_insertionSort _ _
  have hPsub : ∀ x ∈ P, x ∈ t := by
    intro x hx
    have h1 : x ∈ D.take 3 := hPpermTake.mem_iff.mp hx
    have h2 : x ∈ D := (List.take_sublist _ _).mem h1
    exact hDperm.mem_iff.mp h2
  refine ⟨rfl, ?_, ?_, ?_⟩
  · show P.length = min 3 t.length
    rw [hPpermTake.length_eq, List.length_take, List.length_insertionSort]
  · show P.Sorted (fun a b => effNoteTime a ≤ effNoteTime b)
    have hsor : P.Sorted (timeKeyAsc m) := by
      rw [hPdef]
      exact List.sorted_insertionSort _ _
    refine List.Pairwise.imp_of_mem ?_ hsor
    intro a b ha hb hab
    have hka := hkey a (hPsub a ha)
    have hkb := hkey b (hPsub b hb)
    unfold timeKeyAsc at hab
    rw [hka, hkb] at hab
    exact hab
  · refine ⟨D.drop 3, ?_, ?_⟩
    · have h2 : List.Perm (P ++ D.drop 3) (D.take 3 ++ D.drop 3) :=
        hPpermTake.append_right (D.drop 3)
      rw [List.take_append_drop] at h2
      exact h2.trans hDperm
    · intro p hp q hq
      have hsorD : D.Sorted (timeKeyDesc m) := by
        rw [hDdef]
        exact List.sorted_insertionSort _ _
      have hpTake : p ∈ D.take 3 := hPpermTake.mem_iff.mp hp
      have hrel : timeKeyDesc m p q :=
        List.Pairwise.rel_of_mem_take_of_mem_drop hsorD hpTake hq
      have hpt : p ∈ t := hPsub p hp
      have hqt : q ∈ t := hDperm.mem_iff.mp ((List.drop_sublist _ _).mem hq)
      unfold timeKeyDesc at hrel
      rw [hkey p hpt, hkey q hqt] at hrel
      exact hrel

/-- C1 witness: ten today-entries with empty prior state: the baseline records
all ten ids and exactly three entries are processed. -/
theorem c1_first_run_admission_witness :
    (processCreator tenTodayNotes (fun _ => true) [] []).baselineSet
      = some ((todayNotesOf tenTodayNotes (fun _ => true)).map (fun n => n.noteId)) ∧
    (processCreator tenTodayNotes (fun _ => true) [] []).processed.length
      = min 3 (todayNotesOf tenTodayNotes (fun _ => true)).length := by
  have h := c1_first_run_admission tenTodayNotes (fun _ => true) [] (by decide) (by decide)
  exact ⟨h.1, h.2.1⟩

end AIFeedTracker
